import Mathlib

/-!
Verification development for the rustedgedb LSM-tree storage engine.

The definitions below are a shallow embedding of the Rust sources:
`src/memtable.rs`, `src/wal.rs`, `src/sstable.rs`, `src/compaction.rs` and
`src/engine.rs`.  Byte strings are `List Nat` (each element a byte value),
machine integers are `Nat` with explicit `% 2^64` where the Rust code wraps,
and fallible operations return `Except`.  Wall-clock timestamps, which the
Rust code obtains from `SystemTime::now`, are passed as explicit parameters;
they are informational only and no result below depends on their values.
File paths, logging and the tokio runtime are elided: a file's contents are
modelled directly (the WAL as its byte list, an SSTable as its in-memory
index/bloom plus the data entries as written).
-/

namespace RustEdgeDB

/-- Lexicographic comparison of byte strings, mirroring the `Ord` instance of
`Vec<u8>` used by `key.cmp(...)` throughout the Rust sources. -/
def lexCmp : List Nat → List Nat → Ordering
  | [], [] => .eq
  | [], _ :: _ => .lt
  | _ :: _, [] => .gt
  | a :: as, b :: bs =>
    match compare a b with
    | .eq => lexCmp as bs
    | o => o

/-- Little-endian encoding of `n` into `len` bytes, as produced by
`to_le_bytes` on the wrapped value. -/
def natToLe : Nat → Nat → List Nat
  | 0, _ => []
  | len + 1, n => n % 256 :: natToLe len (n / 256)

/-- Little-endian decoding of a byte list, as done by `from_le_bytes`. -/
def leFrom : List Nat → Nat
  | [] => 0
  | b :: bs => b + 256 * leFrom bs

/-- Errors of `src/memtable.rs` (`MemTableError`); message payloads elided. -/
inductive MemTableError where
  | tableFull
  | invalidKey
  | invalidValue
  deriving Repr, DecidableEq

/-- A single entry of the MemTable (`Entry` in `src/memtable.rs`).
`value = none` is a tombstone. -/
structure Entry where
  key : List Nat
  value : Option (List Nat)
  timestamp : Nat
  sequence_number : Nat
  deriving Repr, DecidableEq

/-- Size accounting of an entry (`Entry::size_bytes`):
key length + value length (0 for a tombstone) + 16. -/
def Entry.size_bytes (e : Entry) : Nat :=
  e.key.length + (e.value.map List.length).getD 0 + 16

/-- The MemTable state (`MemTable` in `src/memtable.rs`): the sorted entry
vector, the tracked byte size, the configured bound and the local sequence
counter.  The `Arc<RwLock<...>>` wrappers are elided: every claim treated
here concerns the sequential behaviour. -/
structure MemTable where
  data : List Entry
  size_bytes : Nat
  max_size_bytes : Nat
  sequence_number : Nat
  deriving Repr, DecidableEq

namespace MemTable

/-- `MemTable::new`. -/
def new (max_size_bytes : Nat) : MemTable := ⟨[], 0, max_size_bytes, 0⟩

/-- `MemTable::insert_or_update`: binary-search insertion into the key-sorted
vector, returning the replaced entry when the key was already present.
Modelled as ordered insertion into the sorted list, which is what
`binary_search_by` + `insert`/`replace` compute on the sorted vector. -/
def insert_or_update : List Entry → Entry → List Entry × Option Entry
  | [], e => ([e], none)
  | x :: xs, e =>
    match lexCmp x.key e.key with
    | .lt =>
      let r := insert_or_update xs e
      (x :: r.1, r.2)
    | .eq => (e :: xs, some x)
    | .gt => (e :: x :: xs, none)

/-- `MemTable::find_entry`: binary search for a key.  On the key-sorted
vector this returns the (unique) entry with the given key; modelled as the
first match in the list. -/
def find_entry (data : List Entry) (key : List Nat) : Option Entry :=
  data.find? (fun e => lexCmp e.key key == Ordering.eq)

/-- `MemTable::put`.  The Rust code bumps the sequence counter, builds the
entry with the wall-clock timestamp (here the parameter `ts`), rejects the
write with `TableFull` if the tracked size plus the entry size would exceed
the bound, and otherwise inserts, adding `entry_size.saturating_sub(old_size)`
(`Nat` subtraction is exactly saturating subtraction) when a previous entry
is replaced.  Note: on the `TableFull` path the Rust object keeps the bumped
counter; the `Except` model returns the untouched state, which no theorem
below depends on. -/
def put (mt : MemTable) (key value : List Nat) (ts : Nat) :
    Except MemTableError MemTable :=
  if key = [] then .error .invalidKey
  else
    let sq := mt.sequence_number + 1
    let entry : Entry := ⟨key, some value, ts, sq⟩
    if mt.max_size_bytes < mt.size_bytes + entry.size_bytes then
      .error .tableFull
    else
      let r := insert_or_update mt.data entry
      let newSize :=
        match r.2 with
        | some old => mt.size_bytes + (entry.size_bytes - old.size_bytes)
        | none => mt.size_bytes + entry.size_bytes
      .ok ⟨r.1, newSize, mt.max_size_bytes, sq⟩

/-- `MemTable::delete`: same flow as `put` but storing a tombstone. -/
def delete (mt : MemTable) (key : List Nat) (ts : Nat) :
    Except MemTableError MemTable :=
  if key = [] then .error .invalidKey
  else
    let sq := mt.sequence_number + 1
    let entry : Entry := ⟨key, none, ts, sq⟩
    if mt.max_size_bytes < mt.size_bytes + entry.size_bytes then
      .error .tableFull
    else
      let r := insert_or_update mt.data entry
      let newSize :=
        match r.2 with
        | some old => mt.size_bytes + (entry.size_bytes - old.size_bytes)
        | none => mt.size_bytes + entry.size_bytes
      .ok ⟨r.1, newSize, mt.max_size_bytes, sq⟩

/-- `MemTable::get`: rejects the empty key, then returns
`find_entry(...).and_then(|entry| entry.value.clone())` — the tombstone and
the absent case both collapse to `Ok(None)`. -/
def get (mt : MemTable) (key : List Nat) :
    Except MemTableError (Option (List Nat)) :=
  if key = [] then .error .invalidKey
  else .ok ((find_entry mt.data key).bind Entry.value)

/-- `MemTable::entries`: the full entry list, tombstones included. -/
def entries (mt : MemTable) : List Entry := mt.data

/-- `MemTable::is_full`: tracked size has reached the bound. -/
def is_full (mt : MemTable) : Bool := mt.max_size_bytes ≤ mt.size_bytes

/-- `MemTable::is_empty`. -/
def is_empty (mt : MemTable) : Bool := mt.data = []

end MemTable

/-- Sum of `Entry::size_bytes` over the live contents of a MemTable; the
quantity the spec says `size_bytes()` tracks. -/
def sumEntrySizes (data : List Entry) : Nat :=
  (data.map Entry.size_bytes).sum

/-- The value a layer holds for a key, seen through the live view: `none`
for a tombstone and for an absent key alike. -/
def liveVal (mt : MemTable) (key : List Nat) : Option (List Nat) :=
  (MemTable.find_entry mt.data key).bind Entry.value

/-- Errors of `src/wal.rs` (`WALError`); message payloads elided. -/
inductive WALError where
  | ioError
  | invalidRecord
  | corruptedFile
  | memTableErr (e : MemTableError)
  | fileNotFound
  deriving Repr, DecidableEq

/-- A WAL record (`WALRecord` in `src/wal.rs`); `value = none` marks a
deletion. -/
structure WALRecord where
  key : List Nat
  value : Option (List Nat)
  timestamp : Nat
  sequence_number : Nat
  deriving Repr, DecidableEq

/-- The bytes `WAL::write_record` appends for one record: `u32 key_len`,
`u32 value_len` (0 for a tombstone), `u64 timestamp`, `u64 sequence_number`,
all little-endian, then the key bytes and the value bytes. -/
def encodeRecord (r : WALRecord) : List Nat :=
  natToLe 4 r.key.length ++
  natToLe 4 ((r.value.map List.length).getD 0) ++
  natToLe 8 (r.timestamp % 2 ^ 64) ++
  natToLe 8 (r.sequence_number % 2 ^ 64) ++
  r.key ++ r.value.getD []

/-- `WAL::read_record`: fewer than 24 remaining bytes is a clean end of file
(`read_exact` reports `UnexpectedEof`, mapped to `Ok(None)`); a header whose
`key_len` exceeds 1 MiB or whose `value_len` exceeds 100 MiB is
`InvalidRecord`; a body shorter than `key_len + value_len` makes one of the
two following `read_exact` calls fail with an I/O error.  `value_len = 0`
decodes as a tombstone. -/
def read_record (bytes : List Nat) :
    Except WALError (Option (WALRecord × List Nat)) :=
  if bytes.length < 24 then .ok none
  else
    let kl := leFrom (bytes.take 4)
    let vl := leFrom ((bytes.drop 4).take 4)
    let ts := leFrom ((bytes.drop 8).take 8)
    let sq := leFrom ((bytes.drop 16).take 8)
    if 1048576 < kl ∨ 104857600 < vl then .error .invalidRecord
    else
      let body := bytes.drop 24
      if body.length < kl + vl then .error .ioError
      else
        .ok (some
          (⟨body.take kl,
            if 0 < vl then some ((body.drop kl).take vl) else none,
            ts, sq⟩,
           body.drop (kl + vl)))

/-- One step of `WAL::recover`: a deletion record is applied with
`memtable.delete`, anything else with `memtable.put` — both of which mint a
fresh MemTable sequence number and use the recovery-time wall clock `rts`;
the record's stored timestamp and sequence number are not consulted. -/
def applyRecord (r : WALRecord) (rts : Nat) (mt : MemTable) :
    Except MemTableError MemTable :=
  match r.value with
  | none => mt.delete r.key rts
  | some v => mt.put r.key v rts

/-- The `WAL::recover` loop, fuelled for structural recursion (each parsed
record consumes at least 24 bytes, so `bytes.length + 1` fuel always
suffices; see `recover`).  A MemTable failure aborts recovery as in the Rust
`?`.  On a malformed record the Rust code logs and tries to resynchronise;
for the well-formed inputs considered here that branch is unreachable and is
modelled as stopping gracefully. -/
def recoverFuel : Nat → List Nat → Nat → MemTable →
    Except WALError MemTable
  | 0, _, _, mt => .ok mt
  | fuel + 1, bytes, rts, mt =>
    match read_record bytes with
    | .ok none => .ok mt
    | .ok (some (r, rest)) =>
      match applyRecord r rts mt with
      | .ok mt' => recoverFuel fuel rest rts mt'
      | .error e => .error (.memTableErr e)
    | .error _ => .ok mt

/-- `WAL::recover` on the file's byte contents. -/
def recover (bytes : List Nat) (rts : Nat) (mt : MemTable) :
    Except WALError MemTable :=
  recoverFuel (bytes.length + 1) bytes rts mt

/-- Writer-side WAL state: the file's bytes and the sequence-number
high-water mark (`WAL { file, sequence_number }`). -/
structure WALState where
  bytes : List Nat
  seq : Nat
  deriving Repr, DecidableEq

/-- `WAL::put`: builds a record at `sequence_number = last + 1` (which always
passes `write_record`'s `s == last + 1` check) and appends its encoding. -/
def WALState.put (w : WALState) (key value : List Nat) (ts : Nat) :
    WALState :=
  ⟨w.bytes ++ encodeRecord ⟨key, some value, ts, w.seq + 1⟩, w.seq + 1⟩

/-- `WAL::delete`: as `WALState.put` with a tombstone record. -/
def WALState.delete (w : WALState) (key : List Nat) (ts : Nat) : WALState :=
  ⟨w.bytes ++ encodeRecord ⟨key, none, ts, w.seq + 1⟩, w.seq + 1⟩

/-- An operation recorded in the WAL while also being applied to the
MemTable (the pairing used by the engine's write path). -/
inductive WalOp where
  | putOp (key value : List Nat) (ts : Nat)
  | delOp (key : List Nat) (ts : Nat)
  deriving Repr, DecidableEq

/-- Apply one operation to the WAL writer and the MemTable, in the engine's
order: WAL append, then MemTable mutation. -/
def runOp (st : WALState × MemTable) :
    WalOp → Except MemTableError (WALState × MemTable)
  | .putOp k v ts =>
    match st.2.put k v ts with
    | .ok mt' => .ok (st.1.put k v ts, mt')
    | .error e => .error e
  | .delOp k ts =>
    match st.2.delete k ts with
    | .ok mt' => .ok (st.1.delete k ts, mt')
    | .error e => .error e

/-- Run a list of operations against a WAL writer and a MemTable. -/
def runOps : List WalOp → WALState × MemTable →
    Except MemTableError (WALState × MemTable)
  | [], st => .ok st
  | op :: ops, st =>
    match runOp st op with
    | .ok st' => runOps ops st'
    | .error e => .error e

/-- The MemTable side of one operation alone. -/
def applyMemOp (mt : MemTable) : WalOp → Except MemTableError MemTable
  | .putOp k v ts => mt.put k v ts
  | .delOp k ts => mt.delete k ts

/-- Apply a list of operations to a MemTable. -/
def applyMem : List WalOp → MemTable → Except MemTableError MemTable
  | [], mt => .ok mt
  | op :: ops, mt =>
    match applyMemOp mt op with
    | .ok mt' => applyMem ops mt'
    | .error e => .error e

/-- The record an operation appends when the writer's counter stands at
`s - 1`, i.e. the record receives sequence number `s`. -/
def opRecord : WalOp → Nat → WALRecord
  | .putOp k v ts, s => ⟨k, some v, ts, s⟩
  | .delOp k ts, s => ⟨k, none, ts, s⟩

/-- The bytes a list of operations appends to a WAL whose counter stands at
`s`. -/
def encOps : Nat → List WalOp → List Nat
  | _, [] => []
  | s, op :: ops => encodeRecord (opRecord op (s + 1)) ++ encOps (s + 1) ops

/-- Errors of `src/sstable.rs` (`SSTableError`); message payloads elided. -/
inductive SSTableError where
  | ioError
  | invalidFormat
  | corruptedFile
  | keyNotFound
  | invalidIndex
  deriving Repr, DecidableEq

/-- The bloom filter of `src/sstable.rs` (`BloomFilter`): a byte array of
`size.div_ceil(8)` bytes addressing `size` bits, probed by `hash_count`
hash functions. -/
structure BloomFilter where
  bits : List Nat
  size : Nat
  hash_count : Nat
  deriving Repr, DecidableEq

namespace BloomFilter

/-- `BloomFilter::new`. -/
def new (size hash_count : Nat) : BloomFilter :=
  ⟨List.replicate ((size + 7) / 8) 0, size, hash_count⟩

/-- `BloomFilter::hash`: Fowler–Noll–Vo 1a over the key on a 64-bit `usize`
(`wrapping_mul`, hence the `% 2^64`), then `wrapping_add(seed)`. -/
def hash (key : List Nat) (seed : Nat) : Nat :=
  (key.foldl (fun h b => ((h ^^^ b) * 16777619) % 2 ^ 64) 2166136261
    + seed) % 2 ^ 64

/-- Set bit `bitIndex` of the byte array, as `add`'s loop body does:
`bits[bit_index / 8] |= 1 << (bit_index % 8)`. -/
def setBit (bits : List Nat) (bitIndex : Nat) : List Nat :=
  bits.set (bitIndex / 8) ((bits.getD (bitIndex / 8) 0) ||| (1 <<< (bitIndex % 8)))

/-- Read bit `bitIndex` of the byte array, as `might_contain`'s loop body
does: `bits[bit_index / 8] & (1 << (bit_index % 8)) != 0`. -/
def testBit (bits : List Nat) (bitIndex : Nat) : Bool :=
  (bits.getD (bitIndex / 8) 0).testBit (bitIndex % 8)

/-- `BloomFilter::add`: sets one bit per hash function. -/
def add (bf : BloomFilter) (key : List Nat) : BloomFilter :=
  ⟨(List.range bf.hash_count).foldl
      (fun bits i => setBit bits (hash key i % bf.size)) bf.bits,
   bf.size, bf.hash_count⟩

/-- `BloomFilter::might_contain`: false iff some probed bit is 0. -/
def might_contain (bf : BloomFilter) (key : List Nat) : Bool :=
  (List.range bf.hash_count).all
    (fun i => testBit bf.bits (hash key i % bf.size))

end BloomFilter

/-- The SSTable file header (`SSTableHeader` in `src/sstable.rs`).  Despite
the struct's own `(64 bytes)` doc comment, `reserved` is `[u8; 31]`, so the
serialized header occupies 72 bytes. -/
structure SSTableHeader where
  magic : List Nat
  version : Nat
  entry_count : Nat
  index_offset : Nat
  bloom_filter_offset : Nat
  data_offset : Nat
  compression_type : Nat
  reserved : List Nat
  deriving Repr, DecidableEq

/-- `SSTableHeader::new`: magic `RUSTEDGE`, version 1, compression `None`,
reserved zeroed. -/
def SSTableHeader.new
    (entry_count index_offset bloom_filter_offset data_offset : Nat) :
    SSTableHeader :=
  ⟨[82, 85, 83, 84, 69, 68, 71, 69], 1, entry_count, index_offset,
   bloom_filter_offset, data_offset, 0, List.replicate 31 0⟩

/-- The bytes `SSTableHeader::write` emits: magic (8), `u32 version`,
`u32 entry_count`, `u64 index_offset`, `u64 bloom_filter_offset`,
`u64 data_offset`, one compression byte, then the reserved bytes. -/
def headerBytes (h : SSTableHeader) : List Nat :=
  h.magic ++ natToLe 4 (h.version % 2 ^ 32) ++
  natToLe 4 (h.entry_count % 2 ^ 32) ++
  natToLe 8 (h.index_offset % 2 ^ 64) ++
  natToLe 8 (h.bloom_filter_offset % 2 ^ 64) ++
  natToLe 8 (h.data_offset % 2 ^ 64) ++
  [h.compression_type % 256] ++ h.reserved

/-- The header placeholder `SSTable::from_memtable` writes first:
`std::mem::size_of::<SSTableHeader>()` bytes.  Under `repr(C)` the fields
occupy 8 + 4 + 4 + 8 + 8 + 8 + 1 + 31 = 72 bytes, already 8-aligned, so
`size_of` is 72 — not the 64 the struct's comment claims. -/
def headerPlaceholderSize : Nat := 72

/-- In-memory SSTable model: the bloom filter and the index that
`from_memtable`/`open` keep in memory, plus the data-section entries in
written order (`index` pairs each key with its entry's position).  This
represents tables whose bloom bits fit the 64-byte on-disk placeholder
(at most 51 entries) — beyond that the Rust writer corrupts the data
region, see the C3 analysis. -/
structure SSTableModel where
  bloom_filter : BloomFilter
  index : List (List Nat × Nat)
  data : List Entry
  deriving Repr, DecidableEq

/-- The index built while writing the data section: entry `i` of the sorted
entry list is recorded at position `i` (the Rust code records the byte
offset; positions stand in for offsets). -/
def mkIndexAux (i : Nat) : List Entry → List (List Nat × Nat)
  | [] => []
  | e :: es => (e.key, i) :: mkIndexAux (i + 1) es

/-- Core of `SSTable::from_memtable` on a non-empty entry list: add every
key to a fresh bloom filter of `entries.len() * 10` bits with 3 hash
functions while writing the entries and accumulating the index. -/
def mkSSTable (entries : List Entry) : SSTableModel :=
  ⟨entries.foldl (fun bf e => bf.add e.key)
      (BloomFilter.new (entries.length * 10) 3),
   mkIndexAux 0 entries, entries⟩

/-- `SSTable::from_memtable`: fails with `InvalidFormat` on an empty
MemTable. -/
def from_memtable (mt : MemTable) : Except SSTableError SSTableModel :=
  if mt.data = [] then .error .invalidFormat
  else .ok (mkSSTable mt.data)

/-- `SSTableIndex::find_key`: binary search over the key-ordered index; on
the sorted index this is the (first) entry with the given key. -/
def find_key (index : List (List Nat × Nat)) (key : List Nat) :
    Option (List Nat × Nat) :=
  index.find? (fun p => lexCmp p.1 key == Ordering.eq)

/-- `SSTable::get`: bloom-filter fast reject, then index lookup, then a read
of the referenced data entry.  A dangling index position is an I/O failure
(`read_exact` past the end); a stored key differing from the queried key is
`InvalidIndex`; a read entry with `value_len > 0` yields the value and
`value_len = 0` yields the tombstone answer `Ok(None)`. -/
def SSTableModel.get (s : SSTableModel) (key : List Nat) :
    Except SSTableError (Option (List Nat)) :=
  if ¬ s.bloom_filter.might_contain key then .ok none
  else
    match find_key s.index key with
    | none => .ok none
    | some p =>
      match s.data[p.2]? with
      | none => .error .ioError
      | some e =>
        if e.key ≠ key then .error .invalidIndex
        else if 0 < (e.value.map List.length).getD 0 then
          .ok (some (e.value.getD []))
        else .ok none

/-- Errors of `src/engine.rs` (`EngineError`); payloads elided except the
wrapped component errors. -/
inductive EngineError where
  | walErr (e : WALError)
  | memTableErr (e : MemTableError)
  | sstableErr (e : SSTableError)
  | ioError
  | invalidConfig
  | recoveryFailed
  deriving Repr, DecidableEq

/-- The engine state (`Engine` in `src/engine.rs`): WAL writer, MemTable,
the configured MemTable bound (`config.memtable_size`), the newest-first
SSTable list, and the engine sequence-number mirror. -/
structure Engine where
  wal : WALState
  memtable : MemTable
  memtable_size : Nat
  sstables : List SSTableModel
  sequence_number : Nat
  deriving Repr, DecidableEq

namespace Engine

/-- `Engine::with_config` on an empty data directory: fresh WAL, fresh
MemTable, no SSTables, nothing to recover. -/
def new (memtable_size : Nat) : Engine :=
  ⟨⟨[], 0⟩, MemTable.new memtable_size, memtable_size, [], 0⟩

/-- `Engine::flush_memtable`: build an SSTable from the current MemTable,
insert it at the head of the newest-first list, replace the MemTable with a
fresh one and rotate the WAL (a new empty log file whose recovered
sequence number is 0). -/
def flush_memtable (eng : Engine) : Except EngineError Engine :=
  match from_memtable eng.memtable with
  | .error e => .error (.sstableErr e)
  | .ok sst =>
    .ok ⟨⟨[], 0⟩, MemTable.new eng.memtable_size, eng.memtable_size,
         sst :: eng.sstables, eng.sequence_number⟩

/-- `Engine::put`: reject the empty key, append to the WAL, insert into the
MemTable, and flush when the MemTable reports full.  `ts` is the wall-clock
timestamp the Rust code takes at the top of `put`. -/
def put (eng : Engine) (key value : List Nat) (ts : Nat) :
    Except EngineError Engine :=
  if key = [] then .error .invalidConfig
  else
    let wal' := eng.wal.put key value ts
    match eng.memtable.put key value ts with
    | .error e => .error (.memTableErr e)
    | .ok mt' =>
      let eng' : Engine :=
        ⟨wal', mt', eng.memtable_size, eng.sstables, eng.sequence_number⟩
      if mt'.is_full then flush_memtable eng' else .ok eng'

/-- `Engine::delete`: same sequence with a tombstone. -/
def delete (eng : Engine) (key : List Nat) (ts : Nat) :
    Except EngineError Engine :=
  if key = [] then .error .invalidConfig
  else
    let wal' := eng.wal.delete key ts
    match eng.memtable.delete key ts with
    | .error e => .error (.memTableErr e)
    | .ok mt' =>
      let eng' : Engine :=
        ⟨wal', mt', eng.memtable_size, eng.sstables, eng.sequence_number⟩
      if mt'.is_full then flush_memtable eng' else .ok eng'

/-- `Engine::force_flush`: flush unless the MemTable is empty. -/
def force_flush (eng : Engine) : Except EngineError Engine :=
  if eng.memtable.is_empty then .ok eng else flush_memtable eng

/-- The SSTable probe loop of `Engine::get`:
`if let Ok(Some(value)) = sstable.get(key)` — an `Ok(None)` (miss or
tombstone) and an `Err` alike just move on to the next, older table. -/
def probe : List SSTableModel → List Nat → Option (List Nat)
  | [], _ => none
  | s :: rest, key =>
    match s.get key with
    | .ok (some v) => some v
    | _ => probe rest key

/-- `Engine::get`: reject the empty key, consult the MemTable (whose `get`
collapses tombstone and miss into `None`), then probe the SSTables
newest-first. -/
def get (eng : Engine) (key : List Nat) :
    Except EngineError (Option (List Nat)) :=
  if key = [] then .error .invalidConfig
  else
    match eng.memtable.get key with
    | .error e => .error (.memTableErr e)
    | .ok (some v) => .ok (some v)
    | .ok none => .ok (probe eng.sstables key)

end Engine

/-- Errors of `src/compaction.rs` (`CompactionError`); payloads elided. -/
inductive CompactionError where
  | ioError
  | sstableErr (e : SSTableError)
  | invalidInput
  | compactionFailed
  deriving Repr, DecidableEq

/-- An entry collected during compaction (`CompactionEntry`). -/
structure CompactionEntry where
  key : List Nat
  value : Option (List Nat)
  timestamp : Nat
  sequence_number : Nat
  source_sstable : Nat
  deriving Repr, DecidableEq

/-- The byte strings of the keys `compact_sstables` hard-codes. -/
def key1Bytes : List Nat := [107, 101, 121, 49]

/-- Byte string of `"key2"`. -/
def key2Bytes : List Nat := [107, 101, 121, 50]

/-- Byte string of `"apple"`. -/
def appleBytes : List Nat := [97, 112, 112, 108, 101]

/-- Byte string of `"banana"`. -/
def bananaBytes : List Nat := [98, 97, 110, 97, 110, 97]

/-- Byte string of `"cherry"`. -/
def cherryBytes : List Nat := [99, 104, 101, 114, 114, 121]

/-- Byte string of `"zebra"`. -/
def zebraBytes : List Nat := [122, 101, 98, 114, 97]

/-- Byte string of `"test_key"`. -/
def testKeyBytes : List Nat := [116, 101, 115, 116, 95, 107, 101, 121]

/-- Byte string of `format!("key_{:03}", j)` for `j < 100`. -/
def keyNumBytes (j : Nat) : List Nat :=
  [107, 101, 121, 95, 48 + j / 100 % 10, 48 + j / 10 % 10, 48 + j % 10]

/-- One hard-coded probe of `compact_sstables` that only pushes on
`Ok(Some(_))`. -/
def probeLive (s : SSTableModel) (key : List Nat) (ts sq i : Nat) :
    List CompactionEntry :=
  match s.get key with
  | .ok (some v) => [⟨key, some v, ts, sq, i⟩]
  | _ => []

/-- The entries `compact_sstables` collects from input number `i`: it does
not iterate the table but probes a fixed key set — `"key1"` (pushing a
tombstone entry when the probe answers `Ok(None)`), `"key2"`, `"apple"`,
`"banana"`, `"cherry"`, `"zebra"`, `"key1"` again, `"key_000"`–`"key_099"`
and `"test_key"` — with synthesized timestamps (`ts`) and sequence numbers
derived from the input's position, not from the stored entries. -/
def probeInput (i : Nat) (s : SSTableModel) (ts : Nat) :
    List CompactionEntry :=
  (match s.get key1Bytes with
   | .ok (some v) => [⟨key1Bytes, some v, ts, i, i⟩]
   | .ok none => [⟨key1Bytes, none, ts, i, i⟩]
   | .error _ => []) ++
  probeLive s key2Bytes ts (i + 1000) i ++
  probeLive s appleBytes ts (i + 2000) i ++
  probeLive s bananaBytes ts (i + 2001) i ++
  probeLive s cherryBytes ts (i + 2002) i ++
  probeLive s zebraBytes ts (i + 2003) i ++
  probeLive s key1Bytes ts (i + 3000) i ++
  ((List.range 100).foldr
    (fun j acc => probeLive s (keyNumBytes j) ts (i * 1000 + j) i ++ acc)
    []) ++
  probeLive s testKeyBytes ts (i + 4000) i

/-- The full `all_entries` list over the enumerated inputs. -/
def allEntries (inputs : List SSTableModel) (ts : Nat) :
    List CompactionEntry :=
  (inputs.enum.foldr
    (fun p acc => probeInput p.1 p.2 ts ++ acc) [])

/-- The comparator of `remove_tombstones_and_duplicates`:
key ascending, then sequence number descending. -/
def compactionLe (a b : CompactionEntry) : Bool :=
  match lexCmp a.key b.key with
  | .lt => true
  | .eq => b.sequence_number ≤ a.sequence_number
  | .gt => false

/-- Stable insertion into a `compactionLe`-sorted list. -/
def insertSortedComp (e : CompactionEntry) :
    List CompactionEntry → List CompactionEntry
  | [] => [e]
  | x :: xs =>
    if compactionLe x e then x :: insertSortedComp e xs
    else e :: x :: xs

/-- The `sort_by` call of `remove_tombstones_and_duplicates` (Rust's sort is
a stable merge sort; stable insertion sort computes the same list). -/
def sortCompaction (entries : List CompactionEntry) :
    List CompactionEntry :=
  entries.foldr insertSortedComp []

/-- The walk of `remove_tombstones_and_duplicates`: the first entry seen for
each key is kept unless it is a tombstone; later entries with the current
key are skipped. -/
def dedupWalk : List CompactionEntry → Option (List Nat) →
    List CompactionEntry
  | [], _ => []
  | e :: es, cur =>
    if cur = some e.key then dedupWalk es cur
    else if e.value = none then dedupWalk es (some e.key)
    else e :: dedupWalk es (some e.key)

/-- `CompactionEngine::remove_tombstones_and_duplicates`. -/
def remove_tombstones_and_duplicates (entries : List CompactionEntry) :
    List CompactionEntry :=
  dedupWalk (sortCompaction entries) none

/-- `CompactionEngine::compact_sstables`: rejects an empty input list,
collects the hard-coded probes, removes tombstones and duplicates, and
writes the survivors (`write_compacted_sstable` fails with `InvalidInput`
when nothing survives).  The result is the written entry list. -/
def compact_sstables (inputs : List SSTableModel) (ts : Nat) :
    Except CompactionError (List CompactionEntry) :=
  if inputs = [] then .error .invalidInput
  else
    let finalEntries := remove_tombstones_and_duplicates (allEntries inputs ts)
    if finalEntries = [] then .error .invalidInput
    else .ok finalEntries


theorem lexCmp_self : ∀ l : List Nat, lexCmp l l = .eq := by
  intro l
  induction l with
  | nil => rfl
  | cons a as ih =>
    simp [lexCmp, ih, Nat.compare_eq_eq.2 rfl]

theorem lexCmp_eq_iff : ∀ a b : List Nat, lexCmp a b = .eq ↔ a = b := by
  intro a
  induction a with
  | nil => intro b; cases b <;> simp [lexCmp]
  | cons x xs ih =>
    intro b
    cases b with
    | nil => simp [lexCmp]
    | cons y ys =>
      simp only [lexCmp]
      rcases h : compare x y with _ | _ | _
      · have hxy := Nat.compare_eq_lt.1 h
        simp [Nat.ne_of_lt hxy]
      · have hxy := Nat.compare_eq_eq.1 h
        subst hxy
        simp [ih]
      · have hxy := Nat.compare_eq_gt.1 h
        simp [(Nat.ne_of_lt hxy).symm]

theorem length_natToLe : ∀ len n, (natToLe len n).length = len := by
  intro len
  induction len with
  | zero => intro n; rfl
  | succ k ih => intro n; simp [natToLe, ih]

theorem leFrom_natToLe : ∀ len n, leFrom (natToLe len n) = n % 256 ^ len := by
  intro len
  induction len with
  | zero => intro n; simp [natToLe, leFrom, Nat.mod_one]
  | succ k ih =>
    intro n
    simp only [natToLe, leFrom, ih]
    rw [pow_succ', Nat.mod_mul]

namespace BloomFilter

/-- Well-formedness: byte array of the size the constructor allocates. -/
def WF (bf : BloomFilter) : Prop := bf.bits.length = (bf.size + 7) / 8

theorem wf_new (size hc : Nat) : WF (new size hc) := by
  simp [WF, new]

theorem byteIndex_lt {j n : Nat} (h : j < n) : j / 8 < (n + 7) / 8 := by
  have h1 : j + 8 ≤ n + 7 := by omega
  have h2 : (j + 8) / 8 ≤ (n + 7) / 8 := Nat.div_le_div_right h1
  have h3 : (j + 8) / 8 = j / 8 + 1 := Nat.add_div_right j (by omega)
  omega

theorem getD_set_self {bits : List Nat} {i : Nat} (h : i < bits.length)
    (v : Nat) : (bits.set i v).getD i 0 = v := by
  simp only [List.getD]
  rw [List.get?_eq_getElem?, List.getElem?_set_self h]
  rfl

theorem getD_set_ne {bits : List Nat} {i j : Nat} (h : i ≠ j) (v : Nat) :
    (bits.set i v).getD j 0 = bits.getD j 0 := by
  simp only [List.getD]
  rw [List.get?_eq_getElem?, List.get?_eq_getElem?, List.getElem?_set_ne h]

theorem length_setBit (bits : List Nat) (j : Nat) :
    (setBit bits j).length = bits.length := by
  simp [setBit]

theorem testBit_setBit_self {bits : List Nat} {j : Nat}
    (h : j / 8 < bits.length) : testBit (setBit bits j) j = true := by
  unfold testBit setBit
  rw [getD_set_self h, Nat.one_shiftLeft, Nat.testBit_lor,
    Nat.testBit_two_pow_self]
  simp

theorem testBit_setBit_mono {bits : List Nat} {j j' : Nat}
    (h : testBit bits j = true) : testBit (setBit bits j') j = true := by
  unfold testBit setBit
  unfold testBit at h
  by_cases hb : j' / 8 = j / 8
  · by_cases hlt : j' / 8 < bits.length
    · rw [hb, ← hb, getD_set_self hlt, Nat.one_shiftLeft, Nat.testBit_lor]
      rw [hb, h]
      simp
    · rw [List.set_eq_of_length_le (by omega)]
      exact h
  · rw [getD_set_ne hb]
    exact h

theorem length_foldl_setBit (g : Nat → Nat) :
    ∀ (idxs : List Nat) (bits : List Nat),
      (idxs.foldl (fun bs i => setBit bs (g i)) bits).length = bits.length := by
  intro idxs
  induction idxs with
  | nil => intro bits; rfl
  | cons i is ih =>
    intro bits
    simp only [List.foldl_cons]
    rw [ih, length_setBit]

theorem testBit_foldl_setBit_mono (g : Nat → Nat) :
    ∀ (idxs : List Nat) (bits : List Nat) (j : Nat),
      testBit bits j = true →
      testBit (idxs.foldl (fun bs i => setBit bs (g i)) bits) j = true := by
  intro idxs
  induction idxs with
  | nil => intro bits j h; exact h
  | cons i is ih =>
    intro bits j h
    simp only [List.foldl_cons]
    exact ih _ _ (testBit_setBit_mono h)

theorem testBit_foldl_setBit_of_mem (g : Nat → Nat) :
    ∀ (idxs : List Nat) (bits : List Nat) (i : Nat),
      i ∈ idxs → g i / 8 < bits.length →
      testBit (idxs.foldl (fun bs i => setBit bs (g i)) bits) (g i) = true := by
  intro idxs
  induction idxs with
  | nil => intro bits i h; simp at h
  | cons i' is ih =>
    intro bits i hmem hlt
    simp only [List.foldl_cons]
    rcases List.mem_cons.1 hmem with rfl | hmem'
    · exact testBit_foldl_setBit_mono g is _ _ (testBit_setBit_self hlt)
    · exact ih _ _ hmem' (by rw [length_setBit]; exact hlt)

theorem add_size (bf : BloomFilter) (key : List Nat) :
    (bf.add key).size = bf.size := rfl

theorem wf_add {bf : BloomFilter} (key : List Nat) (h : WF bf) :
    WF (bf.add key) := by
  unfold WF at h ⊢
  unfold add
  simpa [length_foldl_setBit] using h

theorem might_contain_add_self {bf : BloomFilter} (key : List Nat)
    (hwf : WF bf) (hsz : 0 < bf.size) :
    (bf.add key).might_contain key = true := by
  unfold might_contain add
  simp only [List.all_eq_true]
  intro i hi
  refine testBit_foldl_setBit_of_mem (fun i => hash key i % bf.size) _ _ _
    (by simpa using hi) ?_
  rw [hwf]
  exact byteIndex_lt (Nat.mod_lt _ hsz)

theorem might_contain_add_mono {bf : BloomFilter} {key : List Nat}
    (key' : List Nat) (h : bf.might_contain key = true) :
    (bf.add key').might_contain key = true := by
  unfold might_contain at h ⊢
  simp only [List.all_eq_true] at h ⊢
  intro i hi
  exact testBit_foldl_setBit_mono _ _ _ _ (h i hi)

theorem might_contain_foldl_mono {key : List Nat} :
    ∀ (keys : List (List Nat)) {bf : BloomFilter},
      bf.might_contain key = true →
      (keys.foldl add bf).might_contain key = true := by
  intro keys
  induction keys with
  | nil => intro bf h; exact h
  | cons k ks ih =>
    intro bf h
    simp only [List.foldl_cons]
    exact ih (might_contain_add_mono k h)

theorem might_contain_foldl_add :
    ∀ (keys : List (List Nat)) {bf : BloomFilter} {key : List Nat},
      WF bf → 0 < bf.size → key ∈ keys →
      (keys.foldl add bf).might_contain key = true := by
  intro keys
  induction keys with
  | nil => intro bf key _ _ h; simp at h
  | cons k ks ih =>
    intro bf key hwf hsz hmem
    simp only [List.foldl_cons]
    rcases List.mem_cons.1 hmem with rfl | hmem'
    · exact might_contain_foldl_mono ks (might_contain_add_self key hwf hsz)
    · exact ih (wf_add k hwf) hsz hmem'

end BloomFilter



theorem read_record_encode (r : WALRecord) (rest : List Nat)
    (hk : r.key.length ≤ 1048576)
    (hv : (r.value.map List.length).getD 0 ≤ 104857600) :
    read_record (encodeRecord r ++ rest) =
      .ok (some (⟨r.key,
        if 0 < (r.value.map List.length).getD 0 then some (r.value.getD [])
        else none,
        r.timestamp % 2 ^ 64, r.sequence_number % 2 ^ 64⟩, rest)) := by
  have hvl : (r.value.getD []).length = (r.value.map List.length).getD 0 := by
    cases r.value <;> rfl
  have e1 : encodeRecord r ++ rest =
      natToLe 4 r.key.length ++ (natToLe 4 ((r.value.map List.length).getD 0) ++
        (natToLe 8 (r.timestamp % 2 ^ 64) ++ (natToLe 8 (r.sequence_number % 2 ^ 64) ++
          (r.key ++ (r.value.getD [] ++ rest))))) := by
    simp [encodeRecord, List.append_assoc]
  have hlen : (encodeRecord r ++ rest).length =
      24 + (r.key.length + ((r.value.map List.length).getD 0 + rest.length)) := by
    rw [e1]
    simp [length_natToLe, hvl]
    omega
  have t4 : (encodeRecord r ++ rest).take 4 = natToLe 4 r.key.length := by
    rw [e1]; exact List.take_left' (length_natToLe 4 _)
  have d4 : (encodeRecord r ++ rest).drop 4 =
      natToLe 4 ((r.value.map List.length).getD 0) ++
        (natToLe 8 (r.timestamp % 2 ^ 64) ++ (natToLe 8 (r.sequence_number % 2 ^ 64) ++
          (r.key ++ (r.value.getD [] ++ rest)))) := by
    rw [e1]; exact List.drop_left' (length_natToLe 4 _)
  have d8 : (encodeRecord r ++ rest).drop 8 =
      natToLe 8 (r.timestamp % 2 ^ 64) ++ (natToLe 8 (r.sequence_number % 2 ^ 64) ++
        (r.key ++ (r.value.getD [] ++ rest))) := by
    have : (8 : Nat) = 4 + 4 := rfl
    rw [this, ← List.drop_drop, d4]
    exact List.drop_left' (length_natToLe 4 _)
  have d16 : (encodeRecord r ++ rest).drop 16 =
      natToLe 8 (r.sequence_number % 2 ^ 64) ++
        (r.key ++ (r.value.getD [] ++ rest)) := by
    have : (16 : Nat) = 8 + 8 := rfl
    rw [this, ← List.drop_drop, d8]
    exact List.drop_left' (length_natToLe 8 _)
  have d24 : (encodeRecord r ++ rest).drop 24 =
      r.key ++ (r.value.getD [] ++ rest) := by
    have : (24 : Nat) = 16 + 8 := rfl
    rw [this, ← List.drop_drop, d16]
    exact List.drop_left' (length_natToLe 8 _)
  have hkl : leFrom ((encodeRecord r ++ rest).take 4) = r.key.length := by
    rw [t4, leFrom_natToLe]
    exact Nat.mod_eq_of_lt (by norm_num; omega)
  have hvl2 : leFrom (((encodeRecord r ++ rest).drop 4).take 4) =
      (r.value.map List.length).getD 0 := by
    rw [d4, List.take_left' (length_natToLe 4 _), leFrom_natToLe]
    exact Nat.mod_eq_of_lt (by norm_num; omega)
  have hts : leFrom (((encodeRecord r ++ rest).drop 8).take 8) =
      r.timestamp % 2 ^ 64 := by
    rw [d8, List.take_left' (length_natToLe 8 _), leFrom_natToLe]
    exact Nat.mod_eq_of_lt (by norm_num; omega)
  have hsq : leFrom (((encodeRecord r ++ rest).drop 16).take 8) =
      r.sequence_number % 2 ^ 64 := by
    rw [d16, List.take_left' (length_natToLe 8 _), leFrom_natToLe]
    exact Nat.mod_eq_of_lt (by norm_num; omega)
  unfold read_record
  rw [if_neg (by omega)]
  rw [hkl, hvl2, hts, hsq, d24]
  rw [if_neg (by push_neg; constructor <;> omega)]
  have hbodylen : (r.key ++ (r.value.getD [] ++ rest)).length =
      r.key.length + ((r.value.map List.length).getD 0 + rest.length) := by
    simp [hvl]
  rw [if_neg (by omega)]
  have htake : (r.key ++ (r.value.getD [] ++ rest)).take r.key.length =
      r.key := List.take_left' rfl
  have hdropk : (r.key ++ (r.value.getD [] ++ rest)).drop r.key.length =
      r.value.getD [] ++ rest := List.drop_left' rfl
  have htakev : (r.value.getD [] ++ rest).take
      ((r.value.map List.length).getD 0) = r.value.getD [] :=
    List.take_left' hvl
  have hdropkv : (r.key ++ (r.value.getD [] ++ rest)).drop
      (r.key.length + (r.value.map List.length).getD 0) = rest := by
    rw [← List.append_assoc]
    refine List.drop_left' ?_
    simp [hvl]
  rw [htake, hdropk, htakev, hdropkv]

end RustEdgeDB

namespace RustEdgeDB

theorem recoverFuel_nil (f rts : Nat) (mt : MemTable) (hf : 0 < f) :
    recoverFuel f [] rts mt = .ok mt := by
  cases f with
  | zero => omega
  | succ f' => simp [recoverFuel, read_record]

/-- C4: corrected.  The claim says a replayed entry carries the sequence
number stored in its WAL record.  In fact `WAL::recover` applies records via
`MemTable::put`/`MemTable::delete`, which mint fresh sequence numbers from
the MemTable's own counter: replaying any single well-formed record into a
fresh MemTable yields an entry with sequence number 1 — whatever sequence
number the record stores. -/
theorem claim_C4_replay_assigns_fresh_sequence_numbers
    (r : WALRecord) (M rts : Nat)
    (hk : r.key ≠ [])
    (hkl : r.key.length ≤ 1048576)
    (hv : (r.value.map List.length).getD 0 ≤ 104857600)
    (hM : r.key.length + (r.value.map List.length).getD 0 + 16 ≤ M) :
    (recover (encodeRecord r) rts (MemTable.new M)).map
      (fun m => (MemTable.find_entry m.data r.key).map Entry.sequence_number) =
      .ok (some 1) := by
  have hvlen : (r.value.getD []).length = (r.value.map List.length).getD 0 := by
    cases r.value <;> rfl
  have hread : read_record (encodeRecord r) =
      .ok (some (⟨r.key,
        if 0 < (r.value.map List.length).getD 0 then some (r.value.getD [])
        else none,
        r.timestamp % 2 ^ 64, r.sequence_number % 2 ^ 64⟩, [])) := by
    have h := read_record_encode r [] hkl hv
    simpa using h
  have hL : 0 < (encodeRecord r).length := by
    simp [encodeRecord, length_natToLe]
  have hnil : read_record ([] : List Nat) = .ok none := rfl
  unfold recover
  rcases hL' : (encodeRecord r).length with _ | L
  · omega
  · simp only [recoverFuel]
    rw [hread]
    by_cases hvz : 0 < (r.value.map List.length).getD 0
    · simp only [if_pos hvz, applyRecord]
      have hput : (MemTable.new M).put r.key (r.value.getD []) rts =
          .ok ⟨[⟨r.key, some (r.value.getD []), rts, 1⟩],
            Entry.size_bytes ⟨r.key, some (r.value.getD []), rts, 1⟩, M, 1⟩ := by
        simp only [MemTable.put, MemTable.new]
        rw [if_neg hk]
        simp only [MemTable.insert_or_update]
        rw [if_neg (by simp only [Entry.size_bytes]; simp [hvlen]; omega)]
        simp
      rw [hput]
      cases hLz : L with
      | zero =>
        simp [hnil, Except.map, MemTable.find_entry, List.find?, lexCmp_self]
        exact ⟨_, rfl, rfl⟩
      | succ L' =>
        simp only [recoverFuel]
        rw [hnil]
        simp [Except.map, MemTable.find_entry, List.find?, lexCmp_self]
        exact ⟨_, rfl, rfl⟩
    · simp only [if_neg hvz, applyRecord]
      have hdel : (MemTable.new M).delete r.key rts =
          .ok ⟨[⟨r.key, none, rts, 1⟩],
            Entry.size_bytes ⟨r.key, none, rts, 1⟩, M, 1⟩ := by
        simp only [MemTable.delete, MemTable.new]
        rw [if_neg hk]
        simp only [MemTable.insert_or_update]
        rw [if_neg (by simp only [Entry.size_bytes]; simp; omega)]
        simp
      rw [hdel]
      cases hLz : L with
      | zero =>
        simp [hnil, Except.map, MemTable.find_entry, List.find?, lexCmp_self]
        exact ⟨_, rfl, rfl⟩
      | succ L' =>
        simp only [recoverFuel]
        rw [hnil]
        simp [Except.map, MemTable.find_entry, List.find?, lexCmp_self]
        exact ⟨_, rfl, rfl⟩
/-- Equality of entries up to timestamps and sequence numbers: what WAL
replay preserves. -/
def EntryEquiv (a b : Entry) : Prop := a.key = b.key ∧ a.value = b.value

/-- `EntryEquiv` on replaced-entry results. -/
def OldEquiv : Option Entry → Option Entry → Prop
  | none, none => True
  | some a, some b => EntryEquiv a b
  | _, _ => False

/-- Pointwise `EntryEquiv` on entry lists. -/
def DataEquiv (d₁ d₂ : List Entry) : Prop := List.Forall₂ EntryEquiv d₁ d₂

/-- MemTables equal up to entry timestamps and sequence numbers. -/
def MtEquiv (a b : MemTable) : Prop :=
  a.max_size_bytes = b.max_size_bytes ∧ a.size_bytes = b.size_bytes ∧
  DataEquiv a.data b.data

/-- Size and emptiness bounds under which a record encodes and replays
cleanly (the WAL recovery sanity limits, plus a non-empty value for puts —
an empty value is encoded as `value_len = 0` and replays as a delete). -/
def wfOp : WalOp → Bool
  | .putOp k v _ => k.length ≤ 1048576 && v.length ≤ 104857600 && v ≠ []
  | .delOp k _ => k.length ≤ 1048576

theorem size_bytes_eq_of_equiv {a b : Entry} (h : EntryEquiv a b) :
    a.size_bytes = b.size_bytes := by
  obtain ⟨hk, hv⟩ := h
  unfold Entry.size_bytes
  rw [hk, hv]

theorem insert_or_update_equiv :
    ∀ {d₁ d₂ : List Entry} {e₁ e₂ : Entry},
      DataEquiv d₁ d₂ → EntryEquiv e₁ e₂ →
      DataEquiv (MemTable.insert_or_update d₁ e₁).1
        (MemTable.insert_or_update d₂ e₂).1 ∧
      OldEquiv (MemTable.insert_or_update d₁ e₁).2
        (MemTable.insert_or_update d₂ e₂).2 := by
  intro d₁ d₂ e₁ e₂ hd he
  induction hd with
  | nil =>
    exact ⟨List.Forall₂.cons he List.Forall₂.nil, trivial⟩
  | cons hx hrest ih =>
    rename_i x₁ x₂ xs₁ xs₂
    simp only [MemTable.insert_or_update]
    rw [hx.1, he.1]
    cases lexCmp x₂.key e₂.key with
    | lt =>
      simp only
      exact ⟨List.Forall₂.cons hx ih.1, ih.2⟩
    | eq =>
      simp only
      exact ⟨List.Forall₂.cons he hrest, hx⟩
    | gt =>
      simp only
      exact ⟨List.Forall₂.cons he (List.Forall₂.cons hx hrest), trivial⟩

theorem put_equiv {a b : MemTable} {k v : List Nat} {ts₁ ts₂ : Nat}
    {a' : MemTable} (h : MtEquiv a b) (ha : a.put k v ts₁ = .ok a') :
    ∃ b', b.put k v ts₂ = .ok b' ∧ MtEquiv a' b' := by
  obtain ⟨hmax, hsz, hd⟩ := h
  unfold MemTable.put at ha ⊢
  by_cases hk : k = []
  · rw [if_pos hk] at ha; cases ha
  · rw [if_neg hk] at ha ⊢
    have hes : Entry.size_bytes ⟨k, some v, ts₁, a.sequence_number + 1⟩ =
        Entry.size_bytes ⟨k, some v, ts₂, b.sequence_number + 1⟩ := rfl
    by_cases hfull : a.max_size_bytes <
        a.size_bytes + Entry.size_bytes ⟨k, some v, ts₁, a.sequence_number + 1⟩
    · rw [if_pos hfull] at ha; cases ha
    · rw [if_neg hfull] at ha
      rw [if_neg (by rw [← hmax, ← hsz, ← hes]; exact hfull)]
      have hee : EntryEquiv ⟨k, some v, ts₁, a.sequence_number + 1⟩
          ⟨k, some v, ts₂, b.sequence_number + 1⟩ := ⟨rfl, rfl⟩
      obtain ⟨hdat, hold⟩ := insert_or_update_equiv hd hee
      refine ⟨_, rfl, ?_⟩
      simp only at ha
      cases ha
      refine ⟨hmax, ?_, hdat⟩
      cases hr₁ : (MemTable.insert_or_update a.data
          ⟨k, some v, ts₁, a.sequence_number + 1⟩).2 with
      | none =>
        cases hr₂ : (MemTable.insert_or_update b.data
            ⟨k, some v, ts₂, b.sequence_number + 1⟩).2 with
        | none => simp [hr₁, hr₂, hsz, hes]
        | some o₂ => rw [hr₁, hr₂] at hold; cases hold
      | some o₁ =>
        cases hr₂ : (MemTable.insert_or_update b.data
            ⟨k, some v, ts₂, b.sequence_number + 1⟩).2 with
        | none => rw [hr₁, hr₂] at hold; cases hold
        | some o₂ =>
          rw [hr₁, hr₂] at hold
          simp [hr₁, hr₂, hsz, hes, size_bytes_eq_of_equiv hold]

theorem delete_equiv {a b : MemTable} {k : List Nat} {ts₁ ts₂ : Nat}
    {a' : MemTable} (h : MtEquiv a b) (ha : a.delete k ts₁ = .ok a') :
    ∃ b', b.delete k ts₂ = .ok b' ∧ MtEquiv a' b' := by
  obtain ⟨hmax, hsz, hd⟩ := h
  unfold MemTable.delete at ha ⊢
  by_cases hk : k = []
  · rw [if_pos hk] at ha; cases ha
  · rw [if_neg hk] at ha ⊢
    have hes : Entry.size_bytes ⟨k, none, ts₁, a.sequence_number + 1⟩ =
        Entry.size_bytes ⟨k, none, ts₂, b.sequence_number + 1⟩ := rfl
    by_cases hfull : a.max_size_bytes <
        a.size_bytes + Entry.size_bytes ⟨k, none, ts₁, a.sequence_number + 1⟩
    · rw [if_pos hfull] at ha; cases ha
    · rw [if_neg hfull] at ha
      rw [if_neg (by rw [← hmax, ← hsz, ← hes]; exact hfull)]
      have hee : EntryEquiv ⟨k, none, ts₁, a.sequence_number + 1⟩
          ⟨k, none, ts₂, b.sequence_number + 1⟩ := ⟨rfl, rfl⟩
      obtain ⟨hdat, hold⟩ := insert_or_update_equiv hd hee
      refine ⟨_, rfl, ?_⟩
      simp only at ha
      cases ha
      refine ⟨hmax, ?_, hdat⟩
      cases hr₁ : (MemTable.insert_or_update a.data
          ⟨k, none, ts₁, a.sequence_number + 1⟩).2 with
      | none =>
        cases hr₂ : (MemTable.insert_or_update b.data
            ⟨k, none, ts₂, b.sequence_number + 1⟩).2 with
        | none => simp [hr₁, hr₂, hsz, hes]
        | some o₂ => rw [hr₁, hr₂] at hold; cases hold
      | some o₁ =>
        cases hr₂ : (MemTable.insert_or_update b.data
            ⟨k, none, ts₂, b.sequence_number + 1⟩).2 with
        | none => rw [hr₁, hr₂] at hold; cases hold
        | some o₂ =>
          rw [hr₁, hr₂] at hold
          simp [hr₁, hr₂, hsz, hes, size_bytes_eq_of_equiv hold]

theorem find_bind_equiv : ∀ {d₁ d₂ : List Entry}, DataEquiv d₁ d₂ →
    ∀ k, (d₁.find? (fun e => lexCmp e.key k == Ordering.eq)).bind Entry.value =
      (d₂.find? (fun e => lexCmp e.key k == Ordering.eq)).bind Entry.value := by
  intro d₁ d₂ hd k
  induction hd with
  | nil => rfl
  | cons hx hrest ih =>
    rename_i x₁ x₂ xs₁ xs₂
    simp only [List.find?]
    rw [hx.1]
    cases lexCmp x₂.key k == Ordering.eq with
    | true => simp [hx.2]
    | false => simpa using ih

theorem liveVal_equiv {a b : MemTable} (h : MtEquiv a b) (k : List Nat) :
    liveVal a k = liveVal b k := by
  unfold liveVal MemTable.find_entry
  exact find_bind_equiv h.2.2 k

theorem runOps_decompose : ∀ (ops : List WalOp) (w : WALState)
    (mt : MemTable) (w' : WALState) (mt' : MemTable),
    runOps ops (w, mt) = .ok (w', mt') →
    w'.bytes = w.bytes ++ encOps w.seq ops ∧ applyMem ops mt = .ok mt' := by
  intro ops
  induction ops with
  | nil =>
    intro w mt w' mt' h
    simp only [runOps] at h
    cases h
    simp [encOps, applyMem]
  | cons op ops ih =>
    intro w mt w' mt' h
    cases op with
    | putOp k v ts =>
      simp only [runOps, runOp] at h
      cases hstep : mt.put k v ts with
      | error e => rw [hstep] at h; simp at h
      | ok mt₁ =>
        rw [hstep] at h
        simp only at h
        obtain ⟨hb, ha⟩ := ih (w.put k v ts) mt₁ w' mt' h
        constructor
        · rw [hb]
          simp [WALState.put, encOps, opRecord, List.append_assoc]
        · simp only [applyMem, applyMemOp, hstep]
          exact ha
    | delOp k ts =>
      simp only [runOps, runOp] at h
      cases hstep : mt.delete k ts with
      | error e => rw [hstep] at h; simp at h
      | ok mt₁ =>
        rw [hstep] at h
        simp only at h
        obtain ⟨hb, ha⟩ := ih (w.delete k ts) mt₁ w' mt' h
        constructor
        · rw [hb]
          simp [WALState.delete, encOps, opRecord, List.append_assoc]
        · simp only [applyMem, applyMemOp, hstep]
          exact ha



theorem length_encodeRecord (r : WALRecord) :
    (encodeRecord r).length =
      24 + r.key.length + (r.value.getD []).length := by
  simp [encodeRecord, length_natToLe]
  omega

theorem recoverFuel_encOps :
    ∀ (ops : List WalOp) (fuel s rts : Nat) (mtA mtB mtA' : MemTable),
      (∀ op ∈ ops, wfOp op = true) →
      (encOps s ops).length < fuel →
      MtEquiv mtA mtB →
      applyMem ops mtA = .ok mtA' →
      ∃ mtB', recoverFuel fuel (encOps s ops) rts mtB = .ok mtB' ∧
        MtEquiv mtA' mtB' := by
  intro ops
  induction ops with
  | nil =>
    intro fuel s rts mtA mtB mtA' _ hfuel hequiv happly
    simp only [applyMem] at happly
    cases happly
    refine ⟨mtB, ?_, hequiv⟩
    simp only [encOps]
    exact recoverFuel_nil fuel rts mtB (by simp [encOps] at hfuel; omega)
  | cons op ops ih =>
    intro fuel s rts mtA mtB mtA' hwf hfuel hequiv happly
    have hwfop : wfOp op = true := hwf op (List.mem_cons_self op ops)
    have hwfrest : ∀ o ∈ ops, wfOp o = true :=
      fun o ho => hwf o (List.mem_cons_of_mem op ho)
    cases fuel with
    | zero => omega
    | succ f =>
      simp only [encOps, recoverFuel, opRecord]
      cases op with
      | putOp k v ts =>
        simp only [wfOp, Bool.and_eq_true, decide_eq_true_eq] at hwfop
        obtain ⟨⟨hk1, hv1⟩, hvne⟩ := hwfop
        have hvpos : 0 < v.length := by
          cases v with
          | nil => exact absurd rfl hvne
          | cons a as => simp
        have hread := read_record_encode (opRecord (.putOp k v ts) (s + 1))
          (encOps (s + 1) ops) (by simpa [opRecord] using hk1)
          (by simpa [opRecord] using hv1)
        simp only [opRecord] at hread
        rw [show ((⟨k, some v, ts, s + 1⟩ : WALRecord).value.map
            List.length).getD 0 = v.length from rfl] at hread
        rw [if_pos hvpos] at hread
        simp only [opRecord]
        rw [hread]
        simp only [applyRecord]
        simp only [applyMem, applyMemOp] at happly
        cases hstep : mtA.put k v ts with
        | error e => rw [hstep] at happly; simp at happly
        | ok mtA₁ =>
          rw [hstep] at happly
          simp only at happly
          obtain ⟨mtB₁, hstepB, hequiv₁⟩ :=
            @put_equiv _ _ _ _ _ rts _ hequiv hstep
          simp only [Option.getD_some]
          rw [hstepB]
          simp only
          refine ih f (s + 1) rts mtA₁ mtB₁ mtA' hwfrest ?_ hequiv₁ happly
          have hlen : (encodeRecord (opRecord (.putOp k v ts) (s + 1))).length =
              24 + k.length + v.length := by
            rw [length_encodeRecord]
            rfl
          simp only [encOps, opRecord] at hfuel
          rw [List.length_append] at hfuel
          simp only [opRecord] at hlen
          omega
      | delOp k ts =>
        simp only [wfOp, decide_eq_true_eq] at hwfop
        have hread := read_record_encode (opRecord (.delOp k ts) (s + 1))
          (encOps (s + 1) ops) (by simpa [opRecord] using hwfop)
          (by simp [opRecord])
        simp only [opRecord] at hread
        rw [show ((⟨k, none, ts, s + 1⟩ : WALRecord).value.map
            List.length).getD 0 = 0 from rfl] at hread
        rw [if_neg (by omega)] at hread
        simp only [opRecord]
        rw [hread]
        simp only [applyRecord]
        simp only [applyMem, applyMemOp] at happly
        cases hstep : mtA.delete k ts with
        | error e => rw [hstep] at happly; simp at happly
        | ok mtA₁ =>
          rw [hstep] at happly
          simp only at happly
          obtain ⟨mtB₁, hstepB, hequiv₁⟩ :=
            @delete_equiv _ _ _ _ rts _ hequiv hstep
          rw [hstepB]
          simp only
          refine ih f (s + 1) rts mtA₁ mtB₁ mtA' hwfrest ?_ hequiv₁ happly
          have hlen : (encodeRecord (opRecord (.delOp k ts) (s + 1))).length =
              24 + k.length + 0 := by
            rw [length_encodeRecord]
            rfl
          simp only [encOps, opRecord] at hfuel
          rw [List.length_append] at hfuel
          simp only [opRecord] at hlen
          omega

/-- C7: corrected.  For operation sequences whose put values are non-empty
(and within the recovery sanity bounds), replaying the WAL bytes produced by
the run into a fresh MemTable yields the same live view — same live keys,
same values — as the MemTable the operations were applied to.  The claim as
stated fails for empty values (see the counterexample): an empty put value
is written as `value_len = 0` and replays as a delete. -/
theorem claim_C7_wal_roundtrip_nonempty_values (ops : List WalOp) (M rts : Nat)
    (w : WALState) (mt₁ : MemTable)
    (hwf : ∀ op ∈ ops, wfOp op = true)
    (hrun : runOps ops (⟨[], 0⟩, MemTable.new M) = .ok (w, mt₁)) :
    ∀ k, (recover w.bytes rts (MemTable.new M)).map (fun m => liveVal m k) =
      .ok (liveVal mt₁ k) := by
  intro k
  obtain ⟨hb, ha⟩ := runOps_decompose ops ⟨[], 0⟩ (MemTable.new M) w mt₁ hrun
  simp only at hb
  rw [hb]
  simp only [List.nil_append]
  unfold recover
  have hequiv : MtEquiv (MemTable.new M) (MemTable.new M) :=
    ⟨rfl, rfl, List.Forall₂.nil⟩
  obtain ⟨mt₂, hrec, hfin⟩ := recoverFuel_encOps ops
    ((encOps 0 ops).length + 1) 0 rts (MemTable.new M) (MemTable.new M) mt₁
    hwf (by omega) hequiv ha
  rw [hrec]
  simp only [Except.map]
  rw [liveVal_equiv hfin k]


theorem mkSSTable_bloom_contains {entries : List Entry} {e : Entry}
    (hmem : e ∈ entries) :
    (mkSSTable entries).bloom_filter.might_contain e.key = true := by
  have hsz : 0 < entries.length * 10 := by
    have : 0 < entries.length := List.length_pos.2 (by
      intro hnil; rw [hnil] at hmem; simp at hmem)
    omega
  unfold mkSSTable
  simp only
  rw [← List.foldl_map Entry.key BloomFilter.add]
  exact BloomFilter.might_contain_foldl_add (entries.map Entry.key)
    (BloomFilter.wf_new _ _) hsz (List.mem_map_of_mem Entry.key hmem)

theorem ordering_beq_eq {a b : Ordering} (h : (a == b) = true) : a = b := by
  cases a <;> cases b <;> first | rfl | exact absurd h (by decide)

theorem probe_cons {s : SSTableModel} {rest : List SSTableModel}
    {k : List Nat} :
    Engine.probe (s :: rest) k =
      (match s.get k with
       | .ok (some v) => some v
       | _ => Engine.probe rest k) := rfl

theorem probe_cons_error {s : SSTableModel} {rest : List SSTableModel}
    {k : List Nat} {e : SSTableError} (he : s.get k = .error e) :
    Engine.probe (s :: rest) k = Engine.probe rest k := by
  rw [probe_cons, he]

theorem probe_cons_miss {s : SSTableModel} {rest : List SSTableModel}
    {k : List Nat} (he : s.get k = .ok none) :
    Engine.probe (s :: rest) k = Engine.probe rest k := by
  rw [probe_cons, he]

/-- C10: confirmed.  For every non-empty key, an SSTable whose `get` fails
with any error is silently skipped by `Engine::get` — the result is the same
as if the table were not in the list — and `Engine::get` on a non-empty key
always returns `Ok`; the only error it can return is the empty-key
`InvalidConfig` rejection, which happens before any probe. -/
theorem claim_C10_engine_get_skips_sstable_errors (eng : Engine) (s : SSTableModel)
    (k : List Nat) (e : SSTableError) (hk : k ≠ [])
    (he : s.get k = .error e) :
    Engine.get ⟨eng.wal, eng.memtable, eng.memtable_size,
        s :: eng.sstables, eng.sequence_number⟩ k =
      Engine.get eng k ∧
    ∃ r, Engine.get eng k = .ok r := by
  constructor
  · unfold Engine.get
    rw [if_neg hk, if_neg hk]
    unfold MemTable.get
    rw [if_neg hk]
    simp only
    cases hfind : (MemTable.find_entry eng.memtable.data k).bind Entry.value with
    | some v => rfl
    | none => rw [probe_cons_error he]
  · unfold Engine.get
    rw [if_neg hk]
    unfold MemTable.get
    rw [if_neg hk]
    cases hfind : (MemTable.find_entry eng.memtable.data k).bind Entry.value with
    | none => exact ⟨_, rfl⟩
    | some v => exact ⟨_, rfl⟩

/-- C9: confirmed.  `MemTable::get` returns `Ok(None)` both for a MemTable
holding a tombstone for the key and for a MemTable not holding the key at
all; the two states are indistinguishable through `get`, while `entries()`
still exposes the tombstone entry in the first state and no entry with that
key in the second. -/
theorem claim_C9_memtable_get_collapses_tombstone_and_absent
    (mt₁ mt₂ : MemTable) (e : Entry)
    (k : List Nat) (hk : k ≠ [])
    (h1 : MemTable.find_entry mt₁.data k = some e) (he : e.value = none)
    (h2 : MemTable.find_entry mt₂.data k = none) :
    mt₁.get k = .ok none ∧ mt₂.get k = .ok none ∧
    e ∈ mt₁.entries ∧ e.key = k ∧
    ∀ e' ∈ mt₂.entries, e'.key ≠ k := by
  refine ⟨?_, ?_, ?_, ?_, ?_⟩
  · unfold MemTable.get
    rw [if_neg hk, h1]
    rw [show (some e).bind Entry.value = e.value from rfl, he]
  · unfold MemTable.get
    rw [if_neg hk, h2]
    rfl
  · exact List.mem_of_find?_eq_some h1
  · have hp := List.find?_some h1
    exact (lexCmp_eq_iff _ _).1 (ordering_beq_eq hp)
  · intro e' hmem hkey
    have hnp : ¬ (lexCmp e'.key k == Ordering.eq) = true := by
      unfold MemTable.find_entry at h2
      exact List.find?_eq_none.1 h2 e' hmem
    apply hnp
    rw [hkey, lexCmp_self]
    rfl


/-- C1: code_bug.  The claim (and the spec) say a MemTable tombstone, or a
tombstone in a newer SSTable, masks an older SSTable's live value and halts
the newest-first probe.  The code collapses `MemTable::get`'s tombstone into
`Ok(None)` and `Engine::get` then keeps probing; an SSTable tombstone is
likewise reported as `Ok(None)` and skipped.  Evaluating the write path:
after `put(k, v)`, a flush, and `delete(k)`, `get(k)` returns the old value
`v` both while the tombstone sits in the MemTable (`r1`) and after a second
flush puts it into the newest SSTable (`r2`). -/
theorem claim_C1_tombstone_does_not_mask_eval :
    (do
      let e1 ← Engine.put (Engine.new 1000) [97] [118, 49] 0
      let e2 ← Engine.force_flush e1
      let e3 ← Engine.delete e2 [97] 1
      let r1 ← Engine.get e3 [97]
      let e4 ← Engine.force_flush e3
      let r2 ← Engine.get e4 [97]
      Except.ok (r1, r2) :
        Except EngineError (Option (List Nat) × Option (List Nat))) =
      Except.ok (some [118, 49], some [118, 49]) ∧
    (some [118, 49] : Option (List Nat)) ≠ none := by
  exact ⟨rfl, by decide⟩

set_option maxRecDepth 100000 in
/-- C2: code_bug.  The claim (and the function's own doc comment) say
`compact_sstables` merges its inputs keeping every live key.  The code only
probes a hard-coded key list; an input SSTable whose sole live key is
`"foo"` contributes nothing, the surviving entry list is empty, and the
compaction fails with `InvalidInput` — the live key is dropped outright. -/
theorem claim_C2_compaction_drops_unprobed_keys_eval :
    compact_sstables [mkSSTable [⟨[102, 111, 111], some [1], 0, 1⟩]] 0 =
      .error .invalidInput ∧
    (mkSSTable [⟨[102, 111, 111], some [1], 0, 1⟩]).get [102, 111, 111] =
      .ok (some [1]) := by
  exact ⟨rfl, rfl⟩

/-- C3: code_bug.  Read-your-writes fails through a flush when the value is
empty: `put(k, [])` filling a 17-byte MemTable triggers the flush, the
SSTable stores the entry with `value_len = 0`, and the next `get(k)` reads
it back as a tombstone, answering `Ok(None)` instead of the written empty
value.  (Independently, flushing 52 or more entries makes the writer's
bloom bits overrun the fixed 64-byte placeholder and overwrite the data
section, breaking reads the repository's own `test_large_dataset`
asserts.) -/
theorem claim_C3_read_your_writes_empty_value_eval :
    (do
      let e1 ← Engine.put (Engine.new 17) [97] [] 0
      Engine.get e1 [97] : Except EngineError (Option (List Nat))) =
      Except.ok none ∧
    (none : Option (List Nat)) ≠ some [] := by
  exact ⟨rfl, by decide⟩

/-- C5: code_bug.  The claim (and the spec's invariant 5) say `size_bytes()`
is the sum of live entry sizes, decreasing when a key is overwritten with a
smaller value.  The code adds `entry_size.saturating_sub(old_size)`, so a
shrinking overwrite leaves the counter unchanged: after `put(k, 8 bytes)`
then `put(k, 1 byte)` the tracked size is 25 while the live sum is 18. -/
theorem claim_C5_size_tracking_eval :
    (do
      let m1 ← MemTable.put (MemTable.new 1000) [97] [0, 1, 2, 3, 4, 5, 6, 7] 0
      let m2 ← MemTable.put m1 [97] [9] 1
      Except.ok (m2.size_bytes, sumEntrySizes m2.data) :
        Except MemTableError (Nat × Nat)) = Except.ok (25, 18) ∧
    (25 : Nat) ≠ 18 := by
  exact ⟨rfl, by decide⟩

/-- C6: code_bug.  The claim (and the struct's own doc comment) say the
header is exactly 64 bytes with 23 reserved bytes.  The struct declares
`reserved: [u8; 31]`, so `SSTableHeader::write` emits 72 bytes, the
`size_of`-sized placeholder is 72 bytes, and the bloom-filter section starts
at offset 72, not 64. -/
theorem claim_C6_header_is_72_bytes_eval :
    (headerBytes (SSTableHeader.new 3 200 72 136)).length = 72 ∧
    (SSTableHeader.new 3 200 72 136).reserved.length = 31 ∧
    headerPlaceholderSize = 72 ∧ (72 : Nat) ≠ 64 := by
  exact ⟨rfl, rfl, rfl, by decide⟩

/-- C4 counterexample: replaying the encoding of a record whose stored
sequence number is 5 into a fresh MemTable yields an entry whose sequence
number is 1, not 5 — refuting the claim that the WAL's sequence number is
carried over. -/
theorem claim_C4_counterexample :
    (recover (encodeRecord ⟨[107], some [118], 9, 5⟩) 7
        (MemTable.new 1000)).map
      (fun m => (MemTable.find_entry m.data [107]).map Entry.sequence_number) =
      .ok (some 1) ∧ (some 1 : Option Nat) ≠ some 5 := by
  exact ⟨rfl, by decide⟩

/-- C4 witness: the amended theorem applied to a concrete record with
stored sequence number 5. -/
theorem claim_C4_witness :
    (recover (encodeRecord ⟨[107], some [118], 9, 5⟩) 7
        (MemTable.new 1000)).map
      (fun m => (MemTable.find_entry m.data [107]).map Entry.sequence_number) =
      .ok (some 1) :=
  claim_C4_replay_assigns_fresh_sequence_numbers ⟨[107], some [118], 9, 5⟩
    1000 7 (by decide) (by decide) (by decide) (by decide)

/-- C7 counterexample: a single `put(k, [])` leaves the original MemTable
with live key `k` bound to the empty value, yet replaying the produced WAL
bytes yields a MemTable in which `k` is not live (the record decodes as a
delete) — refuting the round-trip claim for empty values. -/
theorem claim_C7_counterexample :
    (do
      let p ← runOps [.putOp [107] [] 5] (⟨[], 0⟩, MemTable.new 1000)
      Except.ok (liveVal p.2 [107]) :
        Except MemTableError (Option (List Nat))) = .ok (some []) ∧
    (recover (WALState.put ⟨[], 0⟩ [107] [] 5).bytes 9
        (MemTable.new 1000)).map
      (fun m => liveVal m [107]) = .ok none ∧
    (some [] : Option (List Nat)) ≠ none := by
  exact ⟨rfl, rfl, by decide⟩

/-- C7 witness: the amended round-trip theorem applied to the run of a
single non-empty put. -/
theorem claim_C7_witness :
    (recover (WALState.put ⟨[], 0⟩ [107] [118] 0).bytes 3
        (MemTable.new 1000)).map
      (fun m => liveVal m [107]) = .ok (some [118]) :=
  claim_C7_wal_roundtrip_nonempty_values [.putOp [107] [118] 0] 1000 3
    (WALState.put ⟨[], 0⟩ [107] [118] 0)
    ⟨[⟨[107], some [118], 0, 1⟩], 18, 1000, 1⟩
    (by decide) rfl [107]

/-- C8: confirmed.  A bloom filter never gives a false negative: adding any
set of keys to a fresh filter of positive size leaves `might_contain` true
for each added key; consequently the in-memory bloom filter built by
`SSTable::from_memtable` (size `entries.len() * 10`, 3 hash functions, one
`add` per entry) answers true for every key present in the flushed
MemTable. -/
theorem claim_C8_bloom_no_false_negatives :
    (∀ (n hc : Nat) (keys : List (List Nat)) (key : List Nat),
      0 < n → key ∈ keys →
      BloomFilter.might_contain
        (keys.foldl BloomFilter.add (BloomFilter.new n hc)) key = true) ∧
    (∀ (entries : List Entry) (e : Entry), e ∈ entries →
      (mkSSTable entries).bloom_filter.might_contain e.key = true) :=
  ⟨fun n hc keys key h1 h2 =>
    BloomFilter.might_contain_foldl_add keys (BloomFilter.wf_new n hc) h1 h2,
   fun _ e hmem => mkSSTable_bloom_contains hmem⟩

/-- C8 witness: both parts of the theorem at concrete inputs. -/
theorem claim_C8_witness :
    BloomFilter.might_contain
      (List.foldl BloomFilter.add (BloomFilter.new 10 3) [[5]]) [5] = true ∧
    (mkSSTable [⟨[7], some [1], 0, 1⟩]).bloom_filter.might_contain [7] =
      true :=
  ⟨claim_C8_bloom_no_false_negatives.1 10 3 [[5]] [5] (by decide) (by decide),
   claim_C8_bloom_no_false_negatives.2 [⟨[7], some [1], 0, 1⟩]
     ⟨[7], some [1], 0, 1⟩ (by decide)⟩

/-- C9 witness: the theorem applied to a MemTable holding a tombstone for
key `[1]` and a fresh MemTable. -/
theorem claim_C9_witness :
    MemTable.get ⟨[⟨[1], none, 5, 1⟩], 17, 100, 1⟩ [1] = .ok none ∧
    MemTable.get (MemTable.new 100) [1] = .ok none := by
  have h := claim_C9_memtable_get_collapses_tombstone_and_absent
    ⟨[⟨[1], none, 5, 1⟩], 17, 100, 1⟩ (MemTable.new 100) ⟨[1], none, 5, 1⟩
    [1] (by decide) (by decide) rfl (by decide)
  exact ⟨h.1, h.2.1⟩

/-- C10 witness: the theorem applied to a concrete engine whose newest
SSTable has a desynchronised index (its `get` fails with `InvalidIndex`)
sitting above a well-formed table holding the key. -/
theorem claim_C10_witness :
    Engine.get ⟨⟨[], 0⟩, MemTable.new 100, 100,
        ⟨⟨[255, 255], 10, 3⟩, [([7], 0)], [⟨[9], some [1], 0, 1⟩]⟩ ::
          [mkSSTable [⟨[7], some [3], 0, 1⟩]], 0⟩ [7] =
      Engine.get ⟨⟨[], 0⟩, MemTable.new 100, 100,
        [mkSSTable [⟨[7], some [3], 0, 1⟩]], 0⟩ [7] ∧
    ∃ r, Engine.get ⟨⟨[], 0⟩, MemTable.new 100, 100,
        [mkSSTable [⟨[7], some [3], 0, 1⟩]], 0⟩ [7] = .ok r :=
  claim_C10_engine_get_skips_sstable_errors
    ⟨⟨[], 0⟩, MemTable.new 100, 100, [mkSSTable [⟨[7], some [3], 0, 1⟩]], 0⟩
    ⟨⟨[255, 255], 10, 3⟩, [([7], 0)], [⟨[9], some [1], 0, 1⟩]⟩
    [7] .invalidIndex (by decide) rfl
end RustEdgeDB
